import Mathlib

/-!
Shallow embedding of the B-tree implementation in `src/node.h` and `src/btree.h`
(template parameter `TK` instantiated at `Int`, which carries the required total
order).

Modelling conventions:
* A C++ `Node<TK>*` is an `Option BNode`; `nullptr` is `none`.
* A node's `keys` array holds `count` valid entries, modelled as a `List Int`
  of length `count`; `count` is therefore `keys.length`.  The `children` array
  holds `count + 1` meaningful slots (slots past `count` are never read by the
  defined-behaviour paths of the source), modelled as a `List (Option BNode)`.
  Leaf nodes keep their `count + 1` null child slots, so the slots the source
  reads on leaves are `none` here, exactly as a reachable tree has them.
* The explicit `leaf` flag of `Node` is carried verbatim.
* C++ functions that can dereference a null pointer or read out of bounds on
  inputs this repository's API never produces are modelled with `Option`
  results, `none` standing for that undefined execution.
* The model's key lists are unbounded, so it does not capture the node
  allocation `new TK[M - 1]` itself, which at `M = 0` wraps and throws
  `bad_array_new_length` and at `M = 1` leaves no key slot to write.
  General statements about arbitrary orders therefore assume `M ≥ 2`.
-/

inductive BNode : Type where
  | mk (keys : List Int) (children : List (Option BNode)) (leaf : Bool)

def BNode.keys : BNode → List Int
  | .mk ks _ _ => ks

def BNode.children : BNode → List (Option BNode)
  | .mk _ cs _ => cs

def BNode.leaf : BNode → Bool
  | .mk _ _ lf => lf

/-- `Node::count`: the number of stored keys. -/
def BNode.count (nd : BNode) : Nat := nd.keys.length

/-- The tree handle of `BTree<TK>`: order `M`, owning root pointer, size `n`. -/
structure BTree where
  M : Nat
  root : Option BNode
  n : Nat

/-- Size bound used by the termination arguments: a child slot read
`children[i]` is structurally no larger than the child list. -/
theorem sizeOf_getD_le (cs : List (Option BNode)) (i : Nat) :
    sizeOf (cs.getD i none) ≤ sizeOf cs := by
  induction cs generalizing i with
  | nil =>
    cases i <;> simp [List.getD]
  | cons c cs ih =>
    cases i with
    | zero =>
      simp only [List.getD_cons_zero, List.cons.sizeOf_spec]
      omega
    | succ j =>
      have := ih j
      simp only [List.getD_cons_succ, List.cons.sizeOf_spec]
      omega

theorem sizeOf_getD_lt (ks : List Int) (cs : List (Option BNode)) (lf : Bool)
    (i : Nat) : sizeOf (cs.getD i none) < sizeOf (BNode.mk ks cs lf) := by
  have h1 := sizeOf_getD_le cs i
  have h2 : sizeOf cs < sizeOf (BNode.mk ks cs lf) := by
    cases lf <;> (simp [BNode.mk.sizeOf_spec]; omega)
  omega

/-- The descent loop `while (i < count && keys[i] < key) ++i` shared by
`search`, `insert` and `remove` (there written as `key > keys[idx]`):
the number of leading keys strictly below `key`. -/
def lb (key : Int) : List Int → Nat
  | [] => 0
  | k :: ks => if k < key then lb key ks + 1 else 0

/-- `BTree::height(const BNode*)`: follow `children[0]` links, counting
edges; `-1` for a null node. -/
def heightN : Option BNode → Int
  | none => -1
  | some nd => 1 + heightN (nd.children.getD 0 none)
termination_by t => sizeOf t
decreasing_by
  cases nd with
  | mk ks cs lf =>
    simp only [Option.some.sizeOf_spec]
    have := sizeOf_getD_lt ks cs lf 0
    simp only [BNode.children] at *
    omega

/-- `BTree::minKey(const BNode*)`: walk `children[0]` while not a leaf, then
return `keys[0]`.  `none` models the undefined reads (null child of a
non-leaf, or `keys[0]` of an empty leaf). -/
def minKeyN (nd : BNode) : Option Int :=
  if nd.leaf then nd.keys.head?
  else
    match h : nd.children.getD 0 none with
    | none => none
    | some c => minKeyN c
termination_by sizeOf nd
decreasing_by
  cases nd with
  | mk ks cs lf =>
    have := sizeOf_getD_lt ks cs lf 0
    simp only [BNode.children] at *
    rw [h] at this
    simp only [Option.some.sizeOf_spec] at this
    omega

/-- `BTree::maxKey(const BNode*)`: walk `children[count]` while not a leaf,
then return `keys[count - 1]`. -/
def maxKeyN (nd : BNode) : Option Int :=
  if nd.leaf then nd.keys.getLast?
  else
    match h : nd.children.getD nd.count none with
    | none => none
    | some c => maxKeyN c
termination_by sizeOf nd
decreasing_by
  cases nd with
  | mk ks cs lf =>
    have := sizeOf_getD_lt ks cs lf (BNode.mk ks cs lf).count
    simp only [BNode.children] at *
    rw [h] at this
    simp only [Option.some.sizeOf_spec] at this
    omega

mutual

/-- In-order key sequence of a subtree: the order in which `toString` and
`rangeSearch` visit keys (`children[i]` before `keys[i]`, final child last).
This is the formal meaning of "the keys present in the tree". -/
def inN : Option BNode → List Int
  | none => []
  | some (.mk ks cs _) => inL ks cs
termination_by t => (sizeOf t, 0)
decreasing_by
  apply Prod.Lex.left
  simp only [Option.some.sizeOf_spec, BNode.mk.sizeOf_spec]
  omega

/-- In-order walk of the parallel key/child-slot lists of one node. -/
def inL : List Int → List (Option BNode) → List Int
  | [], [] => []
  | [], c :: _ => inN c
  | k :: ks, [] => k :: inL ks []
  | k :: ks, c :: cs => inN c ++ k :: inL ks cs
termination_by ks cs => (sizeOf cs, ks.length)
decreasing_by
  · apply Prod.Lex.left
    simp only [List.cons.sizeOf_spec, Option.some.sizeOf_spec]
    omega
  · apply Prod.Lex.right
    simp only [List.length_cons]
    omega
  · apply Prod.Lex.left
    simp only [List.cons.sizeOf_spec]
    omega
  · apply Prod.Lex.left
    simp only [List.cons.sizeOf_spec]
    omega

end

/-- `BTree::search`: iterative descent by `lb`; found iff some node has
`keys[idx] == key` at the descent index. -/
def searchN (key : Int) : Option BNode → Bool
  | none => false
  | some nd =>
    let i := lb key nd.keys
    if i < nd.count ∧ nd.keys.getD i 0 = key then true
    else searchN key (nd.children.getD i none)
termination_by t => sizeOf t
decreasing_by
  cases nd with
  | mk ks cs lf =>
    simp only [Option.some.sizeOf_spec]
    have := sizeOf_getD_lt ks cs lf (lb key (BNode.mk ks cs lf).keys)
    simp only [BNode.children] at *
    omega

/-- The key-ordering loop of `check_properties`: rejects `keys[i] >= keys[i+1]`.
(The source's loop bound `i < count - 1` is on `size_t`; for `count = 0` the
source underflows, which no tree passing the preceding count check reaches —
here the empty and singleton lists simply pass.) -/
def chainLt : List Int → Bool
  | [] => true
  | [_] => true
  | k1 :: k2 :: ks => decide (k1 < k2) && chainLt (k2 :: ks)

/-- The leaf branch of `check_properties`: `children[i] == nullptr` for all
`i <= count` (checked here for the `j` slots `0..j-1`). -/
def slotsNull (cs : List (Option BNode)) : Nat → Bool
  | 0 => true
  | j + 1 => slotsNull cs j && (cs.getD j none).isNone

/-- The internal-node presence loop of `check_properties`: `children[i]` is
non-null for all slots `0..j-1`. -/
def slotsNonNull (cs : List (Option BNode)) : Nat → Bool
  | 0 => true
  | j + 1 => slotsNonNull cs j && (cs.getD j none).isSome

/-- The subtree-height loop of `check_properties`: for `i` in `1..j`,
`height(children[i]) == expected`. -/
def heightsChk (cs : List (Option BNode)) (expected : Int) : Nat → Bool
  | 0 => true
  | j + 1 => heightsChk cs expected j &&
      decide (heightN (cs.getD (j + 1) none) = expected)

/-- The key/subtree bound loop of `check_properties`: for `i < j`, with
`min := maxKey(children[i])` and `max := minKey(children[i+1])` (the source's
own variable names), reject when `keys[i] < min || keys[i] >= max`.  A `none`
from the min/max walks models the source dereferencing a null child there;
it cannot happen once the preceding non-null and recursive checks passed. -/
def boundsChk (ks : List Int) (cs : List (Option BNode)) : Nat → Bool
  | 0 => true
  | j + 1 => boundsChk ks cs j &&
      (match cs.getD j none, cs.getD (j + 1) none with
       | some l, some r =>
         match maxKeyN l, minKeyN r with
         | some mn, some mx =>
           decide (¬ (ks.getD j 0 < mn) ∧ ¬ (ks.getD j 0 ≥ mx))
         | _, _ => false
       | _, _ => false)

mutual

/-- `BTree::check_properties(const BNode*)`.  `isRoot` models the source's
`node == root` pointer test; `(M + 1) / 2 - 1` is `ceil(M / 2.0) - 1`. -/
def checkN (M : Nat) (isRoot : Bool) : Option BNode → Bool
  | none => true
  | some nd =>
    let minKeys : Nat := if isRoot then 1 else (M + 1) / 2 - 1
    decide (minKeys ≤ nd.count ∧ nd.count ≤ M - 1) &&
    chainLt nd.keys &&
    (if nd.leaf then slotsNull nd.children (nd.count + 1)
     else
       slotsNonNull nd.children (nd.count + 1) &&
       checkKids M nd.children (nd.count + 1) &&
       heightsChk nd.children (heightN (nd.children.getD 0 none)) nd.count &&
       boundsChk nd.keys nd.children nd.count)
termination_by t => (sizeOf t, 0)
decreasing_by
  apply Prod.Lex.left
  cases nd with
  | mk ks cs lf =>
    simp only [Option.some.sizeOf_spec, BNode.mk.sizeOf_spec, BNode.children]
    omega

/-- The recursive-check loop of `check_properties` over child slots `0..j-1`. -/
def checkKids (M : Nat) (cs : List (Option BNode)) : Nat → Bool
  | 0 => true
  | j + 1 => checkKids M cs j && checkN M false (cs.getD j none)
termination_by j => (sizeOf cs, j)
decreasing_by
  · exact Prod.Lex.right _ (Nat.lt_succ_self j)
  · have hle := sizeOf_getD_le cs j
    rcases Nat.lt_or_ge (sizeOf (cs.getD j none)) (sizeOf cs) with h | h
    · exact Prod.Lex.left _ _ h
    · have heq : sizeOf (cs.getD j none) = sizeOf cs := Nat.le_antisymm hle h
      rw [heq]
      exact Prod.Lex.right _ (Nat.succ_pos j)

end

mutual

/-- `BTree::rangeSearch(BNode*, out, begin, end)` (the private static
helper), produced as the emitted list: `none` contributes nothing. -/
def rsN (b e : Int) : Option BNode → List Int
  | none => []
  | some (.mk ks cs _) => rsL b e ks cs
termination_by t => (sizeOf t, 0)
decreasing_by
  apply Prod.Lex.left
  simp only [Option.some.sizeOf_spec, BNode.mk.sizeOf_spec]
  omega

/-- The body loop of the range-search helper over the parallel key/child
lists: descend `children[i]` when `begin < keys[i]`, emit `keys[i]` when
`keys[i] >= begin && end >= keys[i]`, and finally descend `children[count]`.
A missing slot is a null child, contributing nothing. -/
def rsL (b e : Int) : List Int → List (Option BNode) → List Int
  | [], [] => []
  | [], c :: _ => rsN b e c
  | k :: ks, [] =>
    (if b ≤ k ∧ k ≤ e then [k] else []) ++ rsL b e ks []
  | k :: ks, c :: cs =>
    (if b < k then rsN b e c else []) ++
    (if b ≤ k ∧ k ≤ e then [k] else []) ++ rsL b e ks cs
termination_by ks cs => (sizeOf cs, ks.length)
decreasing_by
  · apply Prod.Lex.left
    simp only [List.cons.sizeOf_spec, Option.some.sizeOf_spec]
    omega
  · apply Prod.Lex.right
    simp only [List.length_cons]
    omega
  · apply Prod.Lex.left
    simp only [List.cons.sizeOf_spec]
    omega
  · apply Prod.Lex.left
    simp only [List.cons.sizeOf_spec]
    omega

end

/-- Result of the private `BTree::insert(BNode*, TK)`:
`std::variant<bool, std::pair<TK, BNode*>>`. -/
inductive InsRes : Type where
  | done (inserted : Bool)
  | split (key : Int) (child : Option BNode)

/-- The overflow merge loop of the private `insert`: place the promoted
`(new_key, new_child)` pair in front of the first existing key greater than
`new_key`, keeping everything else in order (`new_key_pending` logic). -/
def mergeInto (nk : Int) (nc : Option BNode) :
    List (Int × Option BNode) → List (Int × Option BNode)
  | [] => [(nk, nc)]
  | (k, c) :: rest =>
    if nk < k then (nk, nc) :: (k, c) :: rest
    else (k, c) :: mergeInto nk nc rest

/-- The full-node branch of the private `insert`: build the overflowed
`keys_tmp`/`children_tmp` sequences, split at `mid = (M-1)/2`.  Returns
(the original node, now holding the upper half; the lifted median; the newly
allocated `lsplit` node holding the lower half). -/
def splitOverflow (M : Nat) (nk : Int) (nc : Option BNode) (nd : BNode) :
    BNode × Int × BNode :=
  let merged := mergeInto nk nc (nd.keys.zip nd.children)
  let lastChild := nd.children.getD (M - 1) none
  let mid := (M - 1) / 2
  let lifted := (merged.getD mid (0, none)).1
  let lsplit : BNode :=
    .mk ((merged.take mid).map Prod.fst) ((merged.take (mid + 1)).map Prod.snd)
      nd.leaf
  let orig : BNode :=
    .mk ((merged.drop (mid + 1)).map Prod.fst)
      (((merged.drop (mid + 1)).map Prod.snd) ++ [lastChild]) nd.leaf
  (orig, lifted, lsplit)

/-- The private recursive `BTree::insert(BNode* node, TK key)`.  The returned
`Option BNode` is the node the caller's pointer refers to after the call
(the source mutates it in place). -/
def insertN (M : Nat) (key : Int) : Option BNode → Option BNode × InsRes
  | none => (none, .split key none)
  | some nd =>
    let i := lb key nd.keys
    if i < nd.count ∧ nd.keys.getD i 0 = key then (some nd, .done false)
    else
      match insertN M key (nd.children.getD i none) with
      | (c', .done b) => (some (.mk nd.keys (nd.children.set i c') nd.leaf), .done b)
      | (c', .split nk nc) =>
        if nd.count < M - 1 then
          (some (.mk (nd.keys.insertIdx i nk)
            ((nd.children.set i c').insertIdx i nc) nd.leaf), .done true)
        else
          let nd2 : BNode := .mk nd.keys (nd.children.set i c') nd.leaf
          let res := splitOverflow M nk nc nd2
          (some res.1, .split res.2.1 (some res.2.2))
termination_by t => sizeOf t
decreasing_by
  cases nd with
  | mk ks cs lf =>
    simp only [Option.some.sizeOf_spec]
    have := sizeOf_getD_lt ks cs lf (lb key (BNode.mk ks cs lf).keys)
    simp only [BNode.children] at *
    omega

/-- The public `BTree::insert(TK key)`: handle the root split, maintain `n`. -/
def insertPub (t : BTree) (key : Int) : BTree :=
  match insertN t.M key t.root with
  | (r, .done ins) => ⟨t.M, r, if ins then t.n + 1 else t.n⟩
  | (r, .split nk nc) => ⟨t.M, some (.mk [nk] [nc, r] nc.isNone), t.n + 1⟩

/-- `BTree::search`. -/
def searchPub (t : BTree) (key : Int) : Bool := searchN key t.root

/-- `BTree::size`. -/
def sizePub (t : BTree) : Nat := t.n

/-- `BTree::height`. -/
def heightPub (t : BTree) : Int := heightN t.root

/-- `BTree::check_properties`. -/
def checkPub (t : BTree) : Bool := checkN t.M true t.root

/-- The public `BTree::rangeSearch(begin, end)`. -/
def rangeSearchPub (t : BTree) (b e : Int) : List Int := rsN b e t.root

/-- `BTree::minKey()`: `none` models the `BTree is empty` exception thrown on
a null root (or an undefined read below). -/
def minKeyPub (t : BTree) : Option Int := t.root.bind minKeyN

/-- `BTree::maxKey()`. -/
def maxKeyPub (t : BTree) : Option Int := t.root.bind maxKeyN

/-- `BTree::BTree(M)`: the constructor performs no validation of `M`. -/
def emptyTree (M : Nat) : BTree := ⟨M, none, 0⟩

/-- `BTree::build_from_ordered_vector`: allocate a fresh tree of order `M`
(no validation of `M` whatsoever) and insert every element in order. -/
def build_from_ordered_vector (elements : List Int) (M : Nat) : BTree :=
  elements.foldl insertPub (emptyTree M)

/-! ### Deletion (`BTree::remove(const TK&)`)

The source walks down iteratively, keeping a `std::stack<BNode*>` of the
nodes it passed through (every visited node is pushed *except* the internal
node in which the key is found, which the source forgets to push), deletes
the key from a leaf, then repairs underflow bottom-up by popping the stack.
A stack entry is modelled as the node's contents at push time together with
the child index the walk took; the source recovers that index by comparing
child pointers with `cur`, which finds exactly the recorded index whenever
the popped node is the parent of the current node (distinct children are
distinct pointers).  When it is not the parent — possible only through the
unpushed internal node, or past a zero-key interior parent — the pointer scan
runs off the end and the source reads `keys[count]` out of bounds; those
executions are modelled as `none`. -/

structure PEntry where
  keys : List Int
  children : List (Option BNode)
  leaf : Bool
  /-- index of the child the descent took (`parent->children[idx] == cur`). -/
  idx : Nat
  /-- whether the source pushed this node on the repair stack (`false` only
  for the internal node holding the key, which the source never pushes). -/
  onStack : Bool

/-- Result of the descent phase of `remove`. -/
inductive DescRes : Type where
  /-- the walk fell off a null child: key absent, `remove` is a no-op. -/
  | notFound
  /-- a null dereference the source would perform (unreachable from the
  public API on trees this model evaluates). -/
  | undef
  /-- key found: path from the root (in descent order), the leaf holding the
  key after the predecessor swap, and its index in that leaf. -/
  | found (path : List PEntry) (leafNode : BNode) (i : Nat)

/-- The predecessor walk inside `remove`'s internal-node case: from `nd`
follow `children[count]` until a leaf, pushing every traversed node. -/
def predWalk (nd : BNode) : Option (List PEntry × BNode) :=
  if nd.leaf then some ([], nd)
  else
    match h : nd.children.getD nd.count none with
    | none => none
    | some c =>
      (predWalk c).map fun p =>
        (⟨nd.keys, nd.children, nd.leaf, nd.count, true⟩ :: p.1, p.2)
termination_by sizeOf nd
decreasing_by
  cases nd with
  | mk ks cs lf =>
    have := sizeOf_getD_lt ks cs lf (BNode.mk ks cs lf).count
    simp only [BNode.children] at *
    rw [h] at this
    simp only [Option.some.sizeOf_spec] at this
    omega

/-- The descent loop of `remove`: find the key, pushing traversed nodes; on
finding it in an internal node, swap it with the predecessor (the maximum of
`children[idx]`) and continue to that leaf. -/
def removeDescend (key : Int) : Option BNode → List PEntry → DescRes
  | none, _ => .notFound
  | some nd, path =>
    let i := lb key nd.keys
    if i < nd.count ∧ nd.keys.getD i 0 = key then
      if nd.leaf then .found path nd i
      else
        -- `std::swap(temp->keys[idx], cur->keys[cur->count - 1])`; the
        -- unpushed `temp` is recorded with `onStack := false`.
        match nd.children.getD i none with
        | none => .undef
        | some c0 =>
          match predWalk c0 with
          | none => .undef
          | some (entries, lf) =>
            match lf.keys.getLast? with
            | none => .undef
            | some predKey =>
              .found
                (path ++ ⟨nd.keys.set i predKey, nd.children, nd.leaf, i, false⟩ ::
                  entries)
                ⟨lf.keys.set (lf.count - 1) key, lf.children, lf.leaf⟩
                (lf.count - 1)
    else
      removeDescend key (nd.children.getD i none)
        (path ++ [⟨nd.keys, nd.children, nd.leaf, i, true⟩])
termination_by t => sizeOf t
decreasing_by
  cases nd with
  | mk ks cs lf =>
    simp only [Option.some.sizeOf_spec]
    have := sizeOf_getD_lt ks cs lf (lb key (BNode.mk ks cs lf).keys)
    simp only [BNode.children] at *
    omega

/-- The bottom-up underflow-repair loop of `remove`, fed the path above the
deletion point deepest-first.  Returns the repaired subtree together with
the untouched part of the path, or `none` on the executions where the
source's pointer scan misses (see above). -/
def repairLoop (M : Nat) (cur : BNode) : List PEntry → Option (BNode × List PEntry)
  | [] => some (cur, [])
  | e :: rest =>
    if ¬ (cur.count < (M - 1) / 2) then some (cur, e :: rest)
    else if ¬ e.onStack then
      -- The node above was never pushed.  If pushed ancestors remain the
      -- next pop scans the wrong node's children for `cur` and reads out of
      -- bounds; otherwise the stack is empty and the loop just exits.
      if rest.any (·.onStack) then none else some (cur, e :: rest)
    else
      let pos := e.idx
      let left : Option BNode :=
        if pos > 0 then e.children.getD (pos - 1) none else none
      let right : Option BNode :=
        if pos < e.keys.length then e.children.getD (pos + 1) none else none
      match left, right with
      | some l, _ =>
        if l.count > (M - 1) / 2 then
          -- CASO 1.1: borrow from the left sibling.  The source overwrites
          -- keys[0] with the parent separator *before* shifting right, so
          -- the shift duplicates the separator and loses the old keys[0]
          -- (harmless only when the node had zero keys).  Same for the
          -- children of internal nodes.
          let p := e.keys.getD (pos - 1) 0
          let bl := l.children.getD l.count none
          let cur2 : BNode :=
            ⟨p :: cur.keys.set 0 p,
             (if cur.leaf then cur.children ++ [none]
              else bl :: cur.children.set 0 bl), cur.leaf⟩
          let l2 : BNode := ⟨l.keys.dropLast, l.children.dropLast, l.leaf⟩
          some (⟨e.keys.set (pos - 1) (l.keys.getD (l.count - 1) 0),
                 (e.children.set (pos - 1) (some l2)).set pos (some cur2),
                 e.leaf⟩, rest)
        else
          match right with
          | some r =>
            if r.count > (M - 1) / 2 then
              -- CASO 1.2: borrow from the right sibling.
              let cur2 : BNode :=
                ⟨cur.keys ++ [e.keys.getD pos 0],
                 (if cur.leaf then cur.children ++ [none]
                  else cur.children ++ [r.children.getD 0 none]), cur.leaf⟩
              let r2 : BNode := ⟨r.keys.drop 1, r.children.drop 1, r.leaf⟩
              some (⟨e.keys.set pos (r.keys.getD 0 0),
                     (e.children.set pos (some cur2)).set (pos + 1) (some r2),
                     e.leaf⟩, rest)
            else
              -- CASO 2.1: merge `cur` into the left sibling, delete `cur`.
              let mk2 := l.keys ++ e.keys.getD (pos - 1) 0 :: cur.keys
              let l2 : BNode :=
                ⟨mk2,
                 (if cur.leaf then List.replicate (mk2.length + 1) none
                  else l.children ++ cur.children), l.leaf⟩
              repairLoop M
                ⟨e.keys.eraseIdx (pos - 1),
                 (e.children.set (pos - 1) (some l2)).eraseIdx pos, e.leaf⟩ rest
          | none =>
            -- CASO 2.1 with no right sibling present.
            let mk2 := l.keys ++ e.keys.getD (pos - 1) 0 :: cur.keys
            let l2 : BNode :=
              ⟨mk2,
               (if cur.leaf then List.replicate (mk2.length + 1) none
                else l.children ++ cur.children), l.leaf⟩
            repairLoop M
              ⟨e.keys.eraseIdx (pos - 1),
               (e.children.set (pos - 1) (some l2)).eraseIdx pos, e.leaf⟩ rest
      | none, some r =>
        if r.count > (M - 1) / 2 then
          -- CASO 1.2 (no left sibling).
          let cur2 : BNode :=
            ⟨cur.keys ++ [e.keys.getD pos 0],
             (if cur.leaf then cur.children ++ [none]
              else cur.children ++ [r.children.getD 0 none]), cur.leaf⟩
          let r2 : BNode := ⟨r.keys.drop 1, r.children.drop 1, r.leaf⟩
          some (⟨e.keys.set pos (r.keys.getD 0 0),
                 (e.children.set pos (some cur2)).set (pos + 1) (some r2),
                 e.leaf⟩, rest)
        else
          -- CASO 2.2: merge the right sibling into `cur`, delete `right`.
          let mk2 := cur.keys ++ e.keys.getD pos 0 :: r.keys
          let cur2 : BNode :=
            ⟨mk2,
             (if cur.leaf then List.replicate (mk2.length + 1) none
              else cur.children ++ r.children), cur.leaf⟩
          repairLoop M
            ⟨e.keys.eraseIdx pos,
             (e.children.set pos (some cur2)).eraseIdx (pos + 1), e.leaf⟩ rest
      | none, none =>
        -- Neither sibling exists (zero-key interior parent): the source's
        -- loop does nothing here, leaves `cur` untouched, and the next pop's
        -- pointer scan misses (out-of-bounds read) unless the stack is empty.
        if rest.any (·.onStack) then none
        else some (⟨e.keys, e.children.set pos (some cur), e.leaf⟩, rest)

/-- Fold a repaired subtree back into the untouched upper part of the path
(deepest-first): in the source this is automatic, the ancestors still point
at the mutated nodes. -/
def rebuildPath (cur : Option BNode) : List PEntry → Option BNode
  | [] => cur
  | e :: rest => rebuildPath (some ⟨e.keys, e.children.set e.idx cur, e.leaf⟩) rest

/-- The public `BTree::remove(const TK&)`.  `none` models the executions that
read out of bounds (never reached by the evaluations below). -/
def removePub (t : BTree) (key : Int) : Option BTree :=
  match removeDescend key t.root [] with
  | .notFound => some t
  | .undef => none
  | .found path lf i =>
    -- shift the leaf's keys left over slot `i`, `--cur->count`, `--n`.
    let cur : BNode := ⟨lf.keys.eraseIdx i, lf.children.dropLast, lf.leaf⟩
    match repairLoop t.M cur path.reverse with
    | none => none
    | some (sub, restRev) => some ⟨t.M, rebuildPath (some sub) restRev, t.n - 1⟩

mutual

/-- `Node::killSelf`: unconditionally calls `children[i]->killSelf()` for
every slot `i <= count`, with no leaf or null check.  This computes whether
the destruction of `nd` ever invokes `killSelf` through a null child link
(a missing slot would be an uninitialised pointer: also unsafe). -/
def killDerefNull (nd : BNode) : Bool := killKids nd.children (nd.count + 1)
termination_by (sizeOf nd, 0)
decreasing_by
  apply Prod.Lex.left
  cases nd with
  | mk ks cs lf =>
    simp only [BNode.mk.sizeOf_spec, BNode.children]
    omega

/-- The slot loop of `killSelf` over the first `j` child slots. -/
def killKids : List (Option BNode) → Nat → Bool
  | _, 0 => false
  | [], _ + 1 => true
  | none :: _, _ + 1 => true
  | some c :: cs, j + 1 => killDerefNull c || killKids cs j
termination_by cs j => (sizeOf cs, j)
decreasing_by
  · apply Prod.Lex.left
    simp only [List.cons.sizeOf_spec, Option.some.sizeOf_spec]
    omega
  · apply Prod.Lex.left
    simp only [List.cons.sizeOf_spec]
    omega

end

/-- Key and key list carried by a `split` result (readable projection used in
statements about the private `insert`). -/
def splitPart : InsRes → Option (Int × Option (List Int))
  | .done _ => none
  | .split k c => some (k, c.map BNode.keys)

/-- The spec's concrete scenario tree: order 4, inserting
`10, 20, 5, 6, 12, 30, 7, 17` in that order. -/
def scenarioTree : BTree :=
  List.foldl insertPub (emptyTree 4) [10, 20, 5, 6, 12, 30, 7, 17]

/-- The scenario tree after `remove(20)` then `remove(10)`. -/
def scenarioTreeRemoved : Option BTree :=
  (removePub scenarioTree 20).bind fun t => removePub t 10

/-- Order-3 tree built by inserting `1, 2, 3`: a root `[2]` over leaves `[1]`
and `[3]`. -/
def tree123 : BTree := List.foldl insertPub (emptyTree 3) [1, 2, 3]

/-- Order-5 tree built by inserting `1, 2, 3, 4, 5, 0, -1`: a root `[3]` over
leaves `[-1, 0, 1, 2]` and `[4, 5]`. -/
def tree5 : BTree := List.foldl insertPub (emptyTree 5) [1, 2, 3, 4, 5, 0, -1]

/-- A hand-built order-3 tree whose separator key `5` equals the maximum key
of its left subtree (and duplicates `5` overall): `[5]` over leaves `[5]`
and `[7]`. -/
def equalSepTree : BTree :=
  ⟨3, some (.mk [5]
    [some (.mk [5] [none, none] true), some (.mk [7] [none, none] true)]
    false), 3⟩

/-! ## Claim theorems -/

unseal insertN searchN heightN minKeyN maxKeyN checkN checkKids predWalk removeDescend in
/-- C1: the claim says `check_properties()` returns true after every insert
and remove on a tree that starts empty.  It does hold after `insert(1)`, but
already the two-operation sequence `insert(1); remove(1)` refutes it: the
deletion empties the root leaf without ever deleting or replacing the root
node, and `check_properties` then rejects the zero-key root. -/
theorem c1_remove_breaks_invariant :
    checkPub (insertPub (emptyTree 3) 1) = true ∧
    (removePub (insertPub (emptyTree 3) 1) 1).map checkPub = some false := by
  decide

unseal insertN searchN heightN minKeyN maxKeyN predWalk removeDescend inN inL in
/-- C2: the claim says that when deletion's repair reaches the root and
leaves it with zero keys and exactly one child, that child becomes the new
root and the height drops by one.  In the source no root replacement exists:
with order 3, inserting `1, 2, 3` (height 1) and removing `1` merges the two
leaves, leaving the old root in place with zero keys and exactly one child
(the leaf `[2, 3]`), and the height stays 1 instead of dropping to 0. -/
theorem c2_root_collapse_missing :
    heightPub tree123 = 1 ∧
    (removePub tree123 1).map
      (fun t => (t.root.map BNode.keys,
        t.root.map (fun nd => nd.children.length), heightPub t, inN t.root)) =
      some (some [], some 1, 1, [2, 3]) := by
  decide

unseal insertN searchN in
/-- C3 counterexample: the claim says `build_from_ordered_vector(elements, M)`
fails with `InvalidOrder` for `M < 3`.  No such check exists anywhere in the
source: with `M = 2` it happily returns a tree that contains the input. -/
theorem c3_counterexample :
    sizePub (build_from_ordered_vector [5] 2) = 1 ∧
    searchPub (build_from_ordered_vector [5] 2) 5 = true := by
  decide

unseal insertN searchN predWalk removeDescend inN inL in
/-- C4: the claim says `size()` always equals the number of distinct keys
present.  The borrow-from-left repair (`CASO 1.1`) overwrites `keys[0]` with
the parent separator before shifting, losing a key and duplicating the
separator: with order 5, after inserting `1..5, 0, -1` and removing `5`,
`size()` is 6 but the tree holds keys `[-1, 0, 1, 2, 3, 3]`, i.e. only 5
distinct keys (key `4` has vanished from the tree). -/
theorem c4_size_mismatch :
    (removePub tree5 5).map
      (fun t => (sizePub t, inN t.root, searchPub t 4)) =
      some (6, [-1, 0, 1, 2, 3, 3], false) ∧
    ([-1, 0, 1, 2, 3, 3] : List Int).dedup.length = 5 ∧ (6 : Nat) ≠ 5 := by
  decide

unseal heightN minKeyN maxKeyN checkN checkKids in
/-- C6: the claim says `check_properties` rejects any tree in which a
separator key equals a key of an adjacent subtree.  The bound test
`keys[i] < min || keys[i] >= max` only rejects separators *strictly below*
the left subtree's maximum, so a separator equal to it passes: the checker
accepts the tree `[5]` over leaves `[5]` and `[7]`, whose separator `5`
equals the left subtree's maximum (a duplicated key). -/
theorem c6_checker_accepts_equal_separator :
    maxKeyN (.mk [5] [none, none] true) = some 5 ∧
    checkPub equalSepTree = true := by
  decide

unseal insertN in
/-- C7 counterexample: the claim says that on overflow the keys `[0, mid)`
remain in the original node (acting as left sibling) and keys `(mid, M)` go
to the newly allocated node propagated to the parent.  Inserting `3` into a
full order-3 leaf `[1, 2]` merges to `[1, 2, 3]` with `mid = 1`: the source
leaves `[3]` (the upper half) in the original node and propagates a *new*
node holding `[1]` (the lower half) as the pair's child — the opposite
assignment of roles. -/
theorem c7_counterexample :
    ((insertN 3 3 (some (.mk [1, 2] [none, none, none] true))).1).map
      BNode.keys = some [3] ∧
    ((insertN 3 3 (some (.mk [1, 2] [none, none, none] true))).1).map
      BNode.keys ≠ some [1] ∧
    splitPart (insertN 3 3 (some (.mk [1, 2] [none, none, none] true))).2 =
      some (2, some [1]) := by
  decide

unseal insertN searchN heightN minKeyN maxKeyN checkN checkKids predWalk removeDescend rsN rsL in
/-- C9: the spec's concrete scenario, order 4, inserting
`10, 20, 5, 6, 12, 30, 7, 17`: `search(6)`, `search(99)`, `size()`,
`minKey()`, `maxKey()`, `check_properties()` behave as claimed, and after
`remove(20)` then `remove(10)` (both succeed) `size() == 6`,
`check_properties()` still holds and `rangeSearch(6, 17)` yields
`[6, 7, 12, 17]`. -/
theorem c9_concrete_scenario :
    searchPub scenarioTree 6 = true ∧ searchPub scenarioTree 99 = false ∧
    sizePub scenarioTree = 8 ∧ minKeyPub scenarioTree = some 5 ∧
    maxKeyPub scenarioTree = some 30 ∧ checkPub scenarioTree = true ∧
    scenarioTreeRemoved.map
      (fun t => (sizePub t, checkPub t, rangeSearchPub t 6 17)) =
      some (6, true, [6, 7, 12, 17]) := by
  decide

unseal insertN killDerefNull killKids in
/-- C10: the claim says destroying a tree never invokes node destruction
through a null child link.  `Node::killSelf` loops over `children[0..count]`
with no leaf or null test, so destroying even the one-leaf tree produced by
a single `insert(1)` (whose root is a leaf with two null child slots) calls
`killSelf` through a null pointer. -/
theorem c10_killSelf_null_deref :
    ((insertPub (emptyTree 3) 1).root).map BNode.leaf = some true ∧
    ((insertPub (emptyTree 3) 1).root).map killDerefNull = some true := by
  decide

/-! ### Support lemmas for the general theorems -/

/-- The overflow merge loop places the promoted key at its sorted position:
on a strictly sorted key list not containing `nk` (with enough child slots
to pair), the merged key sequence is the key list with `nk` inserted at
index `lb nk ks`. -/
theorem mergeInto_map_fst (nk : Int) (nc : Option BNode) :
    ∀ (ks : List Int) (cs : List (Option BNode)),
      ks.length ≤ cs.length → List.Pairwise (· < ·) ks → nk ∉ ks →
      (mergeInto nk nc (ks.zip cs)).map Prod.fst =
        ks.take (lb nk ks) ++ nk :: ks.drop (lb nk ks) := by
  intro ks
  induction ks with
  | nil =>
    intro cs _ _ _
    simp [mergeInto, lb]
  | cons k ks ih =>
    intro cs hlen hsort hmem
    match cs with
    | [] => simp at hlen
    | c :: cs =>
      have hlen' : ks.length ≤ cs.length := by simpa using hlen
      rw [List.zip_cons_cons]
      simp only [mergeInto]
      by_cases hlt : nk < k
      · rw [if_pos hlt]
        have hnk : ¬ k < nk := by omega
        rw [List.map_cons, List.map_cons, List.map_fst_zip ks cs hlen']
        simp [lb, hnk]
      · rw [if_neg hlt]
        have hkne : k ≠ nk := fun h => hmem (by simp [h])
        have hklt : k < nk := by omega
        rw [List.map_cons,
          ih cs hlen' hsort.of_cons (fun h => hmem (List.mem_cons_of_mem _ h))]
        simp [lb, hklt]

/-- Reading an entry of the key projection of a pair list. -/
theorem getD_map_fst (l : List (Int × Option BNode)) (i : Nat) :
    (l.map Prod.fst).getD i 0 = (l.getD i (0, none)).1 := by
  induction l generalizing i with
  | nil => cases i <;> simp [List.getD]
  | cons a l ih =>
    cases i with
    | zero => simp
    | succ j => simpa using ih j

/-- Range search over one node's parallel lists equals the bound filter of
its in-order walk, given the filter correctness of every child and
sortedness of the walk. -/
theorem rsL_filter (b e : Int) :
    ∀ (ks : List Int) (cs : List (Option BNode)),
      (∀ nd : BNode, some nd ∈ cs →
        List.Pairwise (· < ·) (inN (some nd)) →
        rsN b e (some nd) = (inN (some nd)).filter fun x => decide (b ≤ x ∧ x ≤ e)) →
      List.Pairwise (· < ·) (inL ks cs) →
      rsL b e ks cs = (inL ks cs).filter fun x => decide (b ≤ x ∧ x ≤ e) := by
  intro ks
  induction ks with
  | nil =>
    intro cs hch hsort
    match cs with
    | [] => simp [rsL, inL]
    | c :: cs' =>
      simp only [rsL, inL] at *
      match c with
      | none => simp [rsN, inN]
      | some nd => exact hch nd (List.mem_cons_self _ _) hsort
  | cons k ks ih =>
    intro cs hch hsort
    match cs with
    | [] =>
      simp only [rsL, inL] at *
      rw [ih [] (by intro nd h _; simp at h) hsort.of_cons]
      by_cases hk : b ≤ k ∧ k ≤ e
      · simp [hk, List.filter_cons]
      · simp [hk, List.filter_cons]
    | c :: cs' =>
      simp only [rsL, inL] at *
      rw [List.pairwise_append] at hsort
      obtain ⟨hA, hB, hAB⟩ := hsort
      have hrest : rsL b e ks cs' =
          (inL ks cs').filter fun x => decide (b ≤ x ∧ x ≤ e) :=
        ih cs' (fun nd h => hch nd (List.mem_cons_of_mem _ h)) hB.of_cons
      rw [List.filter_append, List.filter_cons]
      by_cases hbk : b < k
      · have hc : rsN b e c = (inN c).filter fun x => decide (b ≤ x ∧ x ≤ e) := by
          match c with
          | none => simp [rsN, inN]
          | some nd => exact hch nd (List.mem_cons_self _ _) hA
        rw [if_pos hbk, hc, hrest]
        by_cases hk : b ≤ k ∧ k ≤ e <;> simp [hk]
      · have hc0 : (inN c).filter (fun x => decide (b ≤ x ∧ x ≤ e)) = [] := by
          rw [List.filter_eq_nil_iff]
          intro x hx
          have hxk : x < k := hAB x hx k (List.mem_cons_self _ _)
          simp only [decide_eq_true_eq, not_and]
          intro hbx _
          omega
        rw [if_neg hbk, hc0, hrest]
        by_cases hk : b ≤ k ∧ k ≤ e <;> simp [hk]

/-- The private `rangeSearch` emits exactly the in-order keys within the
bounds, on any subtree whose in-order key sequence is strictly sorted. -/
theorem rsN_filter (b e : Int) :
    ∀ (t : Option BNode), List.Pairwise (· < ·) (inN t) →
      rsN b e t = (inN t).filter fun x => decide (b ≤ x ∧ x ≤ e) := by
  have main : ∀ (n : Nat) (t : Option BNode), sizeOf t = n →
      List.Pairwise (· < ·) (inN t) →
      rsN b e t = (inN t).filter fun x => decide (b ≤ x ∧ x ≤ e) := by
    intro n
    induction n using Nat.strong_induction_on with
    | _ n ih =>
      intro t hsz hsort
      match t with
      | none => simp [rsN, inN]
      | some (.mk ks cs lf) =>
        simp only [rsN, inN] at *
        refine rsL_filter b e ks cs ?_ hsort
        intro nd hmem hnd
        have h1 : sizeOf (some nd) < sizeOf cs := List.sizeOf_lt_of_mem hmem
        have h2 : sizeOf cs < sizeOf (some (BNode.mk ks cs lf)) := by
          cases lf <;> (simp [BNode.mk.sizeOf_spec]; omega)
        have h3 : rsN b e (some nd) =
            (inN (some nd)).filter fun x => decide (b ≤ x ∧ x ≤ e) := by
          refine ih (sizeOf (some nd)) ?_ (some nd) rfl hnd
          omega
        simpa [inN] using h3
  intro t
  exact main (sizeOf t) t rfl

/-- In a strictly sorted key list containing `key`, the descent loop lands
exactly on `key`. -/
theorem lb_mem_sorted (key : Int) :
    ∀ (ks : List Int), List.Pairwise (· < ·) ks → key ∈ ks →
      lb key ks < ks.length ∧ ks.getD (lb key ks) 0 = key := by
  intro ks
  induction ks with
  | nil => intro _ h; simp at h
  | cons k ks ih =>
    intro hs hm
    by_cases hlt : k < key
    · have hne : key ≠ k := by omega
      have hm' : key ∈ ks := by
        rcases List.mem_cons.mp hm with h | h
        · exact absurd h hne
        · exact h
      have hih := ih hs.of_cons hm'
      simp only [lb, if_pos hlt, List.length_cons, List.getD_cons_succ]
      exact ⟨by omega, hih.2⟩
    · have hkey : key = k := by
        rcases List.mem_cons.mp hm with h | h
        · exact h
        · have := (List.pairwise_cons.mp hs).1 key h
          omega
      subst hkey
      simp [lb, hlt]

/-- Writing back the child just read leaves the slot list unchanged
(the in-place mutation of the source). -/
theorem set_getD_self :
    ∀ (cs : List (Option BNode)) (i : Nat) (c : BNode),
      cs.getD i none = some c → cs.set i (some c) = cs := by
  intro cs
  induction cs with
  | nil => intro i c h; cases i <;> simp [List.getD] at h
  | cons c0 cs ih =>
    intro i c h
    cases i with
    | zero => simp_all
    | succ j =>
      simp only [List.getD_cons_succ] at h
      simp [ih j c h]

/-- A node with no child slots lists exactly its keys in order. -/
theorem inL_nil_children : ∀ (ks : List Int), inL ks [] = ks := by
  intro ks
  induction ks with
  | nil => simp [inL]
  | cons k ks ih => simp [inL, ih]

/-- In a sorted node where the descent index does not hit the key, the key
(present in the subtree) lives in the child at the descent index. -/
theorem descend_find (key : Int) :
    ∀ (ks : List Int) (cs : List (Option BNode)),
      List.Pairwise (· < ·) (inL ks cs) → key ∈ inL ks cs →
      ¬ (lb key ks < ks.length ∧ ks.getD (lb key ks) 0 = key) →
      ∃ c : BNode, cs.getD (lb key ks) none = some c ∧
        key ∈ inN (some c) ∧ List.Pairwise (· < ·) (inN (some c)) := by
  intro ks
  induction ks with
  | nil =>
    intro cs hsort hmem _
    match cs with
    | [] => simp [inL] at hmem
    | c :: cs' =>
      simp only [inL] at hsort hmem
      match c with
      | none => simp [inN] at hmem
      | some nd => exact ⟨nd, by simp [lb, List.getD_cons_zero], hmem, hsort⟩
  | cons k ks ih =>
    intro cs hsort hmem hnf
    by_cases hlt : k < key
    · match cs with
      | [] =>
        rw [inL_nil_children] at hsort hmem
        exact absurd (lb_mem_sorted key (k :: ks) hsort hmem) hnf
      | c :: cs' =>
        simp only [inL] at hsort hmem
        rw [List.pairwise_append] at hsort
        obtain ⟨hA, hB, hAB⟩ := hsort
        have hknotk : key ∉ inN c := by
          intro hx
          have := hAB key hx k (List.mem_cons_self _ _)
          omega
        have hkne : key ≠ k := by omega
        have hmem' : key ∈ inL ks cs' := by
          rcases List.mem_append.mp hmem with h | h
          · exact absurd h hknotk
          · rcases List.mem_cons.mp h with h | h
            · exact absurd h hkne
            · exact h
        have hnf' : ¬ (lb key ks < ks.length ∧ ks.getD (lb key ks) 0 = key) := by
          intro hx
          apply hnf
          simp only [lb, if_pos hlt, List.length_cons, List.getD_cons_succ]
          exact ⟨by omega, hx.2⟩
        have hres := ih cs' hB.of_cons hmem' hnf'
        simpa only [lb, if_pos hlt, List.getD_cons_succ] using hres
    · match cs with
      | [] =>
        rw [inL_nil_children] at hsort hmem
        exact absurd (lb_mem_sorted key (k :: ks) hsort hmem) hnf
      | c :: cs' =>
        simp only [inL] at hsort hmem
        rw [List.pairwise_append] at hsort
        obtain ⟨hA, hB, hAB⟩ := hsort
        have hkne : key ≠ k := by
          intro he
          apply hnf
          subst he
          simp [lb, hlt]
        have hnotB : key ∉ inL ks cs' := by
          intro hx
          have := (List.pairwise_cons.mp hB).1 key hx
          omega
        have hmemc : key ∈ inN c := by
          rcases List.mem_append.mp hmem with h | h
          · exact h
          · rcases List.mem_cons.mp h with h | h
            · exact absurd h hkne
            · exact absurd h hnotB
        match c with
        | none => simp [inN] at hmemc
        | some nd =>
          exact ⟨nd, by simp [lb, hlt, List.getD_cons_zero], hmemc, hA⟩

/-- A successfully read child slot is a member of the slot list. -/
theorem mem_of_getD :
    ∀ (cs : List (Option BNode)) (i : Nat) (c : BNode),
      cs.getD i none = some c → some c ∈ cs := by
  intro cs
  induction cs with
  | nil => intro i c h; cases i <;> simp [List.getD] at h
  | cons c0 cs ih =>
    intro i c h
    cases i with
    | zero => simp_all
    | succ j =>
      simp only [List.getD_cons_succ] at h
      exact List.mem_cons_of_mem _ (ih j c h)

/-- The private `insert` returns `false` (key already exists) and leaves the
subtree untouched whenever the key is present in a sorted subtree. -/
theorem insertN_mem (M : Nat) (key : Int) :
    ∀ (t : Option BNode), List.Pairwise (· < ·) (inN t) → key ∈ inN t →
      insertN M key t = (t, .done false) := by
  have main : ∀ (n : Nat) (t : Option BNode), sizeOf t = n →
      List.Pairwise (· < ·) (inN t) → key ∈ inN t →
      insertN M key t = (t, .done false) := by
    intro n
    induction n using Nat.strong_induction_on with
    | _ n ih =>
      intro t hsz hsort hmem
      match t with
      | none => simp [inN] at hmem
      | some (.mk ks cs lf) =>
        simp only [inN] at hsort hmem
        simp only [insertN, BNode.keys, BNode.count, BNode.children]
        by_cases hf : lb key ks < ks.length ∧ ks.getD (lb key ks) 0 = key
        · rw [if_pos hf]
        · rw [if_neg hf]
          obtain ⟨c, hc, hmc, hsc⟩ := descend_find key ks cs hsort hmem hf
          have hlt : sizeOf (some c) < n := by
            have h1 : sizeOf (some c) < sizeOf cs :=
              List.sizeOf_lt_of_mem (mem_of_getD cs _ c hc)
            have h2 : sizeOf cs < sizeOf (some (BNode.mk ks cs lf)) := by
              cases lf <;> (simp [BNode.mk.sizeOf_spec]; omega)
            omega
          have hrec : insertN M key (cs.getD (lb key ks) none) =
              (some c, .done false) := by
            rw [hc]
            exact ih (sizeOf (some c)) hlt (some c) rfl hsc hmc
          rw [hrec]
          simp only [set_getD_self cs _ c hc, BNode.leaf]
  intro t
  exact main (sizeOf t) t rfl

/-- C3 (amended): `build_from_ordered_vector(elements, M)` performs no
validation of `M` at all — no `InvalidOrder` condition exists anywhere in
the source (neither in the constructor nor in the builder) — and for every
order `M ≥ 2` (so in particular at `M = 2`, inside the claim's `M < 3`
range) it returns a tree built by repeated insertion; e.g. a singleton
input yields a size-1 tree containing its element.  The restriction to
`M ≥ 2` keeps the statement inside the model's reach: at `M = 0` the
source's `new TK[M - 1]` wraps and throws `bad_array_new_length`, and at
`M = 1` the first insertion writes `keys[0]` past a zero-length array —
failures of the allocation itself, still not an `InvalidOrder` check. -/
theorem c3_amended_no_validation (x : Int) (M : Nat) (hM : 2 ≤ M) :
    sizePub (build_from_ordered_vector [x] M) = 1 ∧
    searchPub (build_from_ordered_vector [x] M) x = true := by
  constructor <;>
    simp [build_from_ordered_vector, emptyTree, insertPub, insertN, searchPub,
      searchN, sizePub, lb, BNode.count, BNode.keys, BNode.children, List.foldl]

unseal insertN searchN in
/-- C3 witness: the amended statement instantiated at the claim-relevant
order `M = 2` with the singleton input `[7]`. -/
theorem c3_amended_no_validation_witness :
    2 ≤ 2 ∧
    (sizePub (build_from_ordered_vector [7] 2) = 1 ∧
     searchPub (build_from_ordered_vector [7] 2) 7 = true) :=
  ⟨by decide, c3_amended_no_validation 7 2 (by decide)⟩

/-- C5: for every tree whose in-order key sequence is strictly ascending
(invariant 3/5 of the data model), `rangeSearch(a, b)` with bounds `a ≤ b`
returns exactly the keys `k` present in the tree with `a ≤ k ≤ b`, in
strictly ascending order — it equals the bound filter of the in-order key
sequence — and whenever `a > b` it returns the empty sequence. -/
theorem c5_rangeSearch_filter (t : BTree) (b e : Int)
    (hsort : List.Pairwise (· < ·) (inN t.root)) :
    rangeSearchPub t b e = (inN t.root).filter (fun x => decide (b ≤ x ∧ x ≤ e)) ∧
    (e < b → rangeSearchPub t b e = []) := by
  have h := rsN_filter b e t.root hsort
  refine ⟨h, fun hbe => ?_⟩
  show rsN b e t.root = []
  rw [h, List.filter_eq_nil_iff]
  intro x hx
  simp only [decide_eq_true_eq, not_and]
  intro h1
  omega

unseal insertN inN inL rsN rsL in
/-- C5 witness: the order-3 tree holding `1, 2, 3`, queried with the bounds
`[1, 2]`. -/
theorem c5_rangeSearch_filter_witness :
    List.Pairwise (· < ·) (inN tree123.root) ∧
    (rangeSearchPub tree123 1 2 =
      (inN tree123.root).filter (fun x => decide ((1 : Int) ≤ x ∧ x ≤ 2)) ∧
     ((2 : Int) < 1 → rangeSearchPub tree123 1 2 = [])) :=
  ⟨by decide, c5_rangeSearch_filter tree123 1 2 (by decide)⟩

/-- C7 (amended): on overflow, with `A` the `M` merged keys (the existing
sorted keys plus the promoted key placed at its position), the split at
`mid = (M-1)/2` puts keys `[0, mid)` into the *newly allocated* node — the
left sibling, the one propagated to the parent in the split pair — promotes
key `mid`, and keeps keys `(mid, M)` in the *original* node, which acts as
the right sibling.  (The claim had the two nodes' roles exchanged.) -/
theorem c7_amended_split_shape (M : Nat) (nk : Int) (nc : Option BNode)
    (ks : List Int) (cs : List (Option BNode)) (lf : Bool)
    (hlen : ks.length ≤ cs.length) (hsort : List.Pairwise (· < ·) ks)
    (hmem : nk ∉ ks) :
    (splitOverflow M nk nc (.mk ks cs lf)).2.2.keys =
      (ks.take (lb nk ks) ++ nk :: ks.drop (lb nk ks)).take ((M - 1) / 2) ∧
    (splitOverflow M nk nc (.mk ks cs lf)).2.1 =
      (ks.take (lb nk ks) ++ nk :: ks.drop (lb nk ks)).getD ((M - 1) / 2) 0 ∧
    (splitOverflow M nk nc (.mk ks cs lf)).1.keys =
      (ks.take (lb nk ks) ++ nk :: ks.drop (lb nk ks)).drop ((M - 1) / 2 + 1) := by
  have hA := mergeInto_map_fst nk nc ks cs hlen hsort hmem
  refine ⟨?_, ?_, ?_⟩ <;>
    simp only [splitOverflow, BNode.keys, BNode.children, BNode.leaf]
  · rw [List.map_take, hA]
  · rw [← getD_map_fst, hA]
  · rw [List.map_drop, hA]

/-- C7 witness: the full order-3 leaf `[1, 2]` receiving `3`: the new node
takes `[1]`. -/
theorem c7_amended_split_shape_witness :
    List.Pairwise (· < ·) ([1, 2] : List Int) ∧ (3 : Int) ∉ ([1, 2] : List Int) ∧
    (splitOverflow 3 3 none (.mk [1, 2] [none, none, none] true)).2.2.keys =
      (([1, 2] : List Int).take (lb 3 [1, 2]) ++
        3 :: ([1, 2] : List Int).drop (lb 3 [1, 2])).take ((3 - 1) / 2) ∧
    (([1, 2] : List Int).take (lb 3 [1, 2]) ++
        3 :: ([1, 2] : List Int).drop (lb 3 [1, 2])).take ((3 - 1) / 2) = [1] :=
  ⟨by decide, by decide,
    (c7_amended_split_shape 3 3 none [1, 2] [none, none, none] true (by decide)
      (by decide) (by decide)).1, by decide⟩

/-- C8: inserting a key already present in a tree whose in-order key
sequence is strictly ascending (the data model's invariant) is a silent
no-op: the whole tree handle — root structure, key set and `size()` — is
returned unchanged, and no error is raised on this path (the function is
total). -/
theorem c8_duplicate_insert_noop (t : BTree) (key : Int)
    (hsort : List.Pairwise (· < ·) (inN t.root)) (hmem : key ∈ inN t.root) :
    insertPub t key = t := by
  have h := insertN_mem t.M key t.root hsort hmem
  simp only [insertPub, h, if_neg (Bool.false_ne_true)]

unseal insertN inN inL in
/-- C8 witness: re-inserting `2` into the order-3 tree holding `1, 2, 3`. -/
theorem c8_duplicate_insert_noop_witness :
    List.Pairwise (· < ·) (inN tree123.root) ∧ 2 ∈ inN tree123.root ∧
    insertPub tree123 2 = tree123 :=
  ⟨by decide, by decide, c8_duplicate_insert_noop tree123 2 (by decide) (by decide)⟩
